import Mathlib

/-!
Verification development for the `fo_msg_format` crate: a parser for the
legacy FOnline `.MSG` localized-string format.  The Rust sources
(`src/lib.rs`, `src/lexer.rs`) are shallowly embedded below.  Inputs are
byte sequences, modelled as `List Nat` (each element a byte value).  The
`nom` combinator library and the `nom_prelude` helper crate are external
to the repository; their combinators are modelled from their documented
semantics and from the spec's grammar (see the individual doc comments).
-/

set_option maxHeartbeats 1000000
set_option maxRecDepth 10000

/-- A byte-string input, as `&[u8]` in Rust (generic `StringLikeInput`). -/
abbrev Input := List Nat

/-- Result of a `nom` parser: success with remaining input and value,
recoverable error (`nom::Err::Error`, lets `alt` try the next branch), or
unrecoverable failure (`nom::Err::Failure`, produced by `cut`). -/
inductive PResult (α : Type) where
  | ok (rest : Input) (val : α)
  | err
  | fail
deriving DecidableEq

/-- Modelled from the spec: `nom` `char(c)` matches one exact byte. -/
def pchar (c : Nat) : Input → PResult Nat
  | [] => .err
  | b :: rest => if b = c then .ok rest b else .err

/-- A space or horizontal tab byte, as accepted by `nom` `space0`. -/
def isSpaceByte (b : Nat) : Bool := b == 32 || b == 9

/-- Modelled from the spec: `nom` `space0`, zero or more spaces/tabs. -/
def space0 (i : Input) : PResult Unit := .ok (i.dropWhile isSpaceByte) ()

/-- Byte-list prefix test (used to model `nom` `tag`). -/
def bytesStartWith : Input → Input → Bool
  | [], _ => true
  | _ :: _, [] => false
  | t :: ts, b :: bs => t == b && bytesStartWith ts bs

/-- Modelled from the spec: `nom` `tag(t)` matches the literal bytes `t`. -/
def ptag (t : Input) : Input → PResult Unit := fun i =>
  if bytesStartWith t i then .ok (i.drop t.length) () else .err

/-- Modelled from the spec: `nom` `cut`, which escalates a recoverable
error into an unrecoverable failure (the commit discipline of §4.1). -/
def cutP {α : Type} (p : Input → PResult α) (i : Input) : PResult α :=
  match p i with
  | .ok r v => .ok r v
  | .err => .fail
  | .fail => .fail

/-- Modelled from the spec: `nom` `opt`, recoverable error becomes
`none` with no input consumed; failures still propagate. -/
def optP {α : Type} (p : Input → PResult α) (i : Input) : PResult (Option α) :=
  match p i with
  | .ok r v => .ok r (some v)
  | .err => .ok i none
  | .fail => .fail

/-- Not a carriage return or line feed. -/
def notCRLF (b : Nat) : Bool := !(b == 13 || b == 10)

/-- Modelled from the spec: `nom_prelude` `optional_text`, the
rest-of-line text of a comment; leading whitespace is skipped and the
text runs up to (not including) the next CR/LF. -/
def optional_text (i : Input) : PResult Input :=
  .ok ((i.dropWhile isSpaceByte).dropWhile notCRLF)
     ((i.dropWhile isSpaceByte).takeWhile notCRLF)

/-- `comment` from `src/lexer.rs`: optional leading spaces, then `#` or
`//`, then the rest of the line as the comment text. -/
def commentP (i : Input) : PResult Input :=
  match space0 i with
  | .ok i1 _ =>
    match pchar 35 i1 with
    | .ok i2 _ => optional_text i2
    | _ =>
      match ptag [47, 47] i1 with
      | .ok i2 _ => optional_text i2
      | _ => .err
  | _ => .err

/-- Modelled from the spec: `nom_prelude` `not_closing_curly`, arbitrary
field text not containing the closing delimiter (newlines allowed, may
be empty). -/
def not_closing_curly (i : Input) : PResult Input :=
  .ok (i.dropWhile (fun b => !(b == 125))) (i.takeWhile (fun b => !(b == 125)))

/-- An ASCII digit byte. -/
def isDigitByte (b : Nat) : Bool := 48 ≤ b && b ≤ 57

/-- Numeric value of a digit string. -/
def digitsVal (ds : Input) : Nat := ds.foldl (fun acc d => acc * 10 + (d - 48)) 0

/-- Modelled from the spec: `nom_prelude` `unsigned_number`, one or more
digits forming an unsigned 32-bit integer; overflow is a parse error. -/
def unsigned_number (i : Input) : PResult Nat :=
  match i.takeWhile isDigitByte with
  | [] => .err
  | ds =>
    if digitsVal ds ≤ 4294967295 then .ok (i.dropWhile isDigitByte) (digitsVal ds)
    else .err

/-- Modelled from the spec: `nom_prelude` `curly_delimited(p)`, i.e.
`delimited(char(ob), p, char(cb))` with the curly delimiters. -/
def curly_delimited {α : Type} (p : Input → PResult α) (i : Input) : PResult α :=
  match pchar 123 i with
  | .ok i1 _ =>
    match p i1 with
    | .ok i2 v =>
      match pchar 125 i2 with
      | .ok i3 _ => .ok i3 v
      | .err => .err
      | .fail => .fail
    | .err => .err
    | .fail => .fail
  | .err => .err
  | .fail => .fail

/-- `Entry` from `src/lib.rs`: one parsed
`(index)(secondary)(value)(optional comment)` record. -/
structure Entry where
  index : Nat
  secondary : Input
  value : Input
  comment : Option Input
deriving DecidableEq

/-- `_entry_with_tuple` from `src/lexer.rs`: the tuple-based entry
parser, with no `cut` anywhere (all failures recoverable). -/
def _entry_with_tuple (i : Input) : PResult Entry :=
  match curly_delimited unsigned_number i with
  | .ok i1 index =>
    match curly_delimited not_closing_curly i1 with
    | .ok i2 secondary =>
      match curly_delimited not_closing_curly i2 with
      | .ok i3 value =>
        match optP commentP i3 with
        | .ok i4 c => .ok i4 ⟨index, secondary, value, c⟩
        | .err => .err
        | .fail => .fail
      | .err => .err
      | .fail => .fail
    | .err => .err
    | .fail => .fail
  | .err => .err
  | .fail => .fail

/-- `_entry_with_macro` from `src/lexer.rs`.  Modelled from the spec:
the `parse_struct!` macro of `nom_prelude` expands to parsing each field
in sequence with no `cut`, exactly like the tuple-based version. -/
def _entry_with_macro (i : Input) : PResult Entry :=
  match curly_delimited unsigned_number i with
  | .ok i1 index =>
    match curly_delimited not_closing_curly i1 with
    | .ok i2 secondary =>
      match curly_delimited not_closing_curly i2 with
      | .ok i3 value =>
        match optP commentP i3 with
        | .ok i4 c => .ok i4 ⟨index, secondary, value, c⟩
        | .err => .err
        | .fail => .fail
      | .err => .err
      | .fail => .fail
    | .err => .err
    | .fail => .fail
  | .err => .err
  | .fail => .fail

/-- `entry_with_apply` from `src/lexer.rs`: the commit/cut-based entry
parser.  The index digits are parsed under `cut`, and every field after
the first delimited group is parsed under `cut_apply` (a `cut` around
the whole sub-parser). -/
def entry_with_apply (i : Input) : PResult Entry :=
  match curly_delimited (cutP unsigned_number) i with
  | .ok i1 index =>
    match cutP (curly_delimited not_closing_curly) i1 with
    | .ok i2 secondary =>
      match cutP (curly_delimited not_closing_curly) i2 with
      | .ok i3 value =>
        match cutP (optP commentP) i3 with
        | .ok i4 c => .ok i4 ⟨index, secondary, value, c⟩
        | .err => .err
        | .fail => .fail
      | .err => .err
      | .fail => .fail
    | .err => .err
    | .fail => .fail
  | .err => .err
  | .fail => .fail

/-- `Line` from `src/lib.rs`: one classified physical line. -/
inductive Line where
  | Entry (e : Entry)
  | Break
  | Comment (text : Input)
deriving DecidableEq

/-- `Msg` from `src/lib.rs`: the parsed document, an ordered sequence of
classified lines. -/
structure Msg where
  lines : List Line
deriving DecidableEq

/-- `line` from `src/lexer.rs`: `alt` over comment, then (optional
leading spaces, entry), then spaces-only blank line.  A recoverable
error moves to the next alternative; an unrecoverable failure aborts. -/
def lineP (i : Input) : PResult Line :=
  match commentP i with
  | .ok r t => .ok r (.Comment t)
  | .fail => .fail
  | .err =>
    match (match space0 i with
           | .ok i1 _ => entry_with_apply i1
           | .err => .err
           | .fail => .fail) with
    | .ok r e => .ok r (.Entry e)
    | .fail => .fail
    | .err =>
      match space0 i with
      | .ok r _ => .ok r .Break
      | .err => .err
      | .fail => .fail

/-- Modelled from the spec: `nom_prelude` `t_rn`, a line break `CR?LF`
(optional carriage return, then a required line feed). -/
def t_rn (i : Input) : PResult Unit :=
  match optP (pchar 13) i with
  | .ok i1 _ =>
    match pchar 10 i1 with
    | .ok i2 _ => .ok i2 ()
    | .err => .err
    | .fail => .fail
  | _ => .err

/-- Modelled from the spec: the loop of `separated_list_first_unchecked
(t_rn, line)`: repeatedly a separator then a line; a recoverable error
of the separator or of the line stops the list (rewinding to before the
separator); a failure aborts.  The fuel argument only bounds the
recursion; each iteration consumes at least the line-feed byte, so
`input length + 1` fuel is never exhausted. -/
def sepTail : Nat → Input → PResult (List Line)
  | 0, i => .ok i []
  | fuel + 1, i =>
    match t_rn i with
    | .ok i1 _ =>
      match lineP i1 with
      | .ok i2 ln =>
        match sepTail fuel i2 with
        | .ok i3 rest => .ok i3 (ln :: rest)
        | .err => .err
        | .fail => .fail
      | .err => .ok i []
      | .fail => .fail
    | .err => .ok i []
    | .fail => .fail

/-- `msg` from `src/lexer.rs`: a document is a first line followed by
(line break, line) repetitions. -/
def msgP (i : Input) : PResult Msg :=
  match lineP i with
  | .ok i1 first =>
    match sepTail (i1.length + 1) i1 with
    | .ok i2 rest => .ok i2 ⟨first :: rest⟩
    | .err => .err
    | .fail => .fail
  | .err => .ok i ⟨[]⟩
  | .fail => .fail

/-- Render bytes as characters, as `u8::as_char` does in the error path
of `tokenize_msg`. -/
def charsOf (l : Input) : String := String.mk (l.map Char.ofNat)

/-- `tokenize_msg` from `src/lexer.rs`: run the document grammar; in
exhaustive mode, leftover input is an error carrying up to the first 20
unconsumed characters.  The rendering of an inner `nom` error by
`err_to_string` is modelled by an abstract message. -/
def tokenize_msg (input : Input) (exhaustive : Bool) : Except String Msg :=
  match msgP input with
  | .ok rest m =>
    if !exhaustive || rest.length == 0 then .ok m
    else .error ("Failed to exhaust input to the end: " ++ charsOf (rest.take 20))
  | .err => .error ("ParseError")
  | .fail => .error ("ParseError")

/-- `MsgLine` from `src/lib.rs`: a stored value, either a validated
string (`String(Box<str>)`, represented here by the str's UTF-8 bytes)
or raw bytes (`Bytes(Box<[u8]>)`). -/
inductive MsgLine where
  | String (s : Input)
  | Bytes (b : Input)
deriving DecidableEq

/-- `MsgLine::string` from `src/lib.rs`: the text if this is the string
variant, else `None`. -/
def MsgLine.string : MsgLine → Option Input
  | .String s => some s
  | .Bytes _ => none

/-- `MsgLine::bytes` from `src/lib.rs`: the byte representation of
either variant (`str::as_bytes` for the string variant). -/
def MsgLine.bytes : MsgLine → Input
  | .String s => s
  | .Bytes b => b

/-- The key-value entries of the `BTreeMap<(u32, u32), MsgLine>`,
kept in ascending key order as the B-tree does. -/
abbrev DictList := List ((Nat × Nat) × MsgLine)

/-- Strict lexicographic order on `(u32, u32)` composite keys, the
ordering of the `BTreeMap`. -/
def keyLtb (a b : Nat × Nat) : Bool :=
  decide (a.1 < b.1) || (decide (a.1 = b.1) && decide (a.2 < b.2))

/-- Insertion into the sorted entry list, returning the displaced old
value if the key was already present — the model of
`BTreeMap::insert`. -/
def btInsert (k : Nat × Nat) (v : MsgLine) : DictList → DictList × Option MsgLine
  | [] => ([(k, v)], none)
  | e :: t =>
    if keyLtb k e.1 then ((k, v) :: e :: t, none)
    else if k = e.1 then ((k, v) :: t, some e.2)
    else
      match btInsert k v t with
      | (t', old) => (e :: t', old)

/-- Lookup in the entry list, the model of `BTreeMap::get`. -/
def btGet (k : Nat × Nat) (l : DictList) : Option MsgLine :=
  match l.find? (fun e => decide (e.1 = k)) with
  | some e => some e.2
  | none => none

/-- `MsgDictionary` from `src/lib.rs`: the ordered mapping from
composite keys to stored values. -/
structure MsgDictionary where
  index_to_line : DictList
deriving DecidableEq

/-- `MsgDictionary::new`. -/
def emptyMsgDictionary : MsgDictionary := ⟨[]⟩

/-- The sub-index chosen by `MsgDictionary::insert`: the last key of
`range((index, 0)..(index, u32::MAX))` plus one, or `0` if the range is
empty.  Note the range end is exclusive, exactly as in the source. -/
def allocSub (index : Nat) (l : DictList) : Nat :=
  match (l.filter (fun e => e.1.1 == index && decide (e.1.2 < 4294967295))).getLast? with
  | some e => e.1.2 + 1
  | none => 0

/-- `MsgDictionary::insert` from `src/lib.rs`: allocate the next
sub-index, insert, and `assert_eq!(old, None)`.  A failing assertion is
a panic, modelled as `none`. -/
def MsgDictionary.insert (d : MsgDictionary) (index : Nat) (value : MsgLine) :
    Option MsgDictionary :=
  match btInsert (index, allocSub index d.index_to_line) value d.index_to_line with
  | (l, none) => some ⟨l⟩
  | (_, some _) => none

/-- `MsgDictionary::get_first_string` from `src/lib.rs`. -/
def MsgDictionary.get_first_string (d : MsgDictionary) (index : Nat) : Option Input :=
  (btGet (index, 0) d.index_to_line).bind MsgLine.string

/-- `MsgDictionary::get_first_bytes` from `src/lib.rs`. -/
def MsgDictionary.get_first_bytes (d : MsgDictionary) (index : Nat) : Option Input :=
  (btGet (index, 0) d.index_to_line).map MsgLine.bytes

/-- One step of UTF-8 validation: `need` continuation bytes are still
expected and the next one must be in `lo..hi`; after it, continuations
are in the generic `128..191` range.  This is the standard (RFC 3629)
table implemented by `std::str::from_utf8`, which decides the default
conversion of `parse_msg`. -/
def utf8Fold : Nat → Nat → Nat → Input → Bool
  | 0, _, _, [] => true
  | 0, _, _, b :: rest =>
    if b ≤ 127 then utf8Fold 0 0 0 rest
    else if 194 ≤ b ∧ b ≤ 223 then utf8Fold 1 128 191 rest
    else if b = 224 then utf8Fold 2 160 191 rest
    else if (225 ≤ b ∧ b ≤ 236) ∨ b = 238 ∨ b = 239 then utf8Fold 2 128 191 rest
    else if b = 237 then utf8Fold 2 128 159 rest
    else if b = 240 then utf8Fold 3 144 191 rest
    else if 241 ≤ b ∧ b ≤ 243 then utf8Fold 3 128 191 rest
    else if b = 244 then utf8Fold 3 128 143 rest
    else false
  | _ + 1, _, _, [] => false
  | need + 1, lo, hi, b :: rest =>
    if lo ≤ b ∧ b ≤ hi then utf8Fold need 128 191 rest else false

/-- UTF-8 validity of a byte string, as tested by
`std::str::from_utf8`. -/
def utf8Valid (l : Input) : Bool := utf8Fold 0 0 0 l

/-- The default line converter of `parse_msg` from `src/lib.rs`: valid
UTF-8 bytes become the string variant (same bytes, zero-copy), anything
else the bytes variant. -/
def defaultLineConverter (bytes : Input) : MsgLine :=
  if utf8Valid bytes then .String bytes else .Bytes bytes

/-- The loop of `parse_msg_ext` from `src/lib.rs`: fold the document's
lines into the dictionary.  A non-empty secondary field is
`panic!("Non-empty secondary key! ...")`; a failing insert assertion is
also a panic; both are modelled as `none`.  Breaks and comments are
ignored. -/
def buildDict (conv : Input → MsgLine) : List Line → MsgDictionary → Option MsgDictionary
  | [], d => some d
  | Line.Entry e :: rest, d =>
    if e.secondary = [] then
      match d.insert e.index (conv e.value) with
      | some d' => buildDict conv rest d'
      | none => none
    else none
  | Line.Break :: rest, d => buildDict conv rest d
  | Line.Comment _ :: rest, d => buildDict conv rest d

/-- Observable outcome of `parse_msg_ext`: a returned dictionary, a
returned error string, or a process abort (`panic!` / failed
assertion). -/
inductive ParseOutcome where
  | ok (d : MsgDictionary)
  | err (e : String)
  | panic
deriving DecidableEq

/-- `parse_msg_ext` from `src/lib.rs`: tokenize exhaustively, then build
the dictionary with the caller-supplied line converter. -/
def parse_msg_ext (input : Input) (conv : Input → MsgLine) : ParseOutcome :=
  match tokenize_msg input true with
  | .error e => .err e
  | .ok m =>
    match buildDict conv m.lines emptyMsgDictionary with
    | some d => .ok d
    | none => .panic

/-- `parse_msg` from `src/lib.rs`: `parse_msg_ext` with the default
UTF-8 line converter. -/
def parse_msg (input : Input) : ParseOutcome :=
  parse_msg_ext input defaultLineConverter

/-- Modelled from the spec: the upper half (bytes `128..191`) of the
WHATWG windows-1251 decode table, as used by the `encoding_rs` crate;
byte `152` (`0x98`) is unmapped and decodes to U+FFFD with the error
flag set. -/
def cp1251High : List Nat :=
  [0x0402, 0x0403, 0x201A, 0x0453, 0x201E, 0x2026, 0x2020, 0x2021,
   0x20AC, 0x2030, 0x0409, 0x2039, 0x040A, 0x040C, 0x040B, 0x040F,
   0x0452, 0x2018, 0x2019, 0x201C, 0x201D, 0x2022, 0x2013, 0x2014,
   0xFFFD, 0x2122, 0x0459, 0x203A, 0x045A, 0x045C, 0x045B, 0x045F,
   0x00A0, 0x040E, 0x045E, 0x0408, 0x00A4, 0x0490, 0x00A6, 0x00A7,
   0x0401, 0x00A9, 0x0404, 0x00AB, 0x00AC, 0x00AD, 0x00AE, 0x0407,
   0x00B0, 0x00B1, 0x0406, 0x0456, 0x0491, 0x00B5, 0x00B6, 0x00B7,
   0x0451, 0x2116, 0x0454, 0x00BB, 0x0458, 0x0405, 0x0455, 0x0457]

/-- Modelled from the spec: windows-1251 decoding of one byte to a
Unicode code point (ASCII maps to itself, `192..255` are the Cyrillic
block `U+0410..U+044F`). -/
def cp1251DecodeByte (b : Nat) : Nat :=
  if b < 128 then b
  else if b < 192 then cp1251High.getD (b - 128) 0xFFFD
  else 0x0410 + (b - 192)

/-- Modelled from the spec: windows-1251 decoding of a byte string to a
code-point sequence. -/
def cp1251Decode (l : Input) : List Nat := l.map cp1251DecodeByte

/-- Modelled from the spec: whether windows-1251 decoding of these bytes
reports errors — exactly when the unmapped byte `0x98` occurs.  (BOM
sniffing by `encoding_rs::Encoding::decode` is not modelled; the inputs
considered here do not start with a byte-order mark.) -/
def cp1251HadErrors (l : Input) : Bool := l.any (fun b => b == 152)

/-- UTF-8 encoding of one code point. -/
def utf8EncodeChar (c : Nat) : List Nat :=
  if c < 0x80 then [c]
  else if c < 0x800 then [0xC0 + c / 64, 0x80 + c % 64]
  else if c < 0x10000 then [0xE0 + c / 4096, 0x80 + (c / 64) % 64, 0x80 + c % 64]
  else [0xF0 + c / 262144, 0x80 + (c / 4096) % 64, 0x80 + (c / 64) % 64, 0x80 + c % 64]

/-- UTF-8 encoding of a code-point sequence (the bytes of the Rust
`String` built from a decoded `Cow<str>`). -/
def utf8Encode (cs : List Nat) : Input := cs.flatMap utf8EncodeChar

/-- The line converter closure of `parse_cp1251_file` from
`src/lib.rs`, verbatim: if decoding HAD errors the decoded text is
stored as the string variant, otherwise the raw bytes are stored as the
bytes variant.  (The file read wrapper around it is out of scope.) -/
def cp1251LineConverter (bytes : Input) : MsgLine :=
  if cp1251HadErrors bytes then .String (utf8Encode (cp1251Decode bytes))
  else .Bytes bytes

/-- Modelled from the spec (§2/§3, for comparison with the source): the
cp1251 converter the spec describes, storing validated text when the
bytes decode without errors and falling back to the raw bytes when
decoding fails. -/
def specCp1251LineConverter (bytes : Input) : MsgLine :=
  if cp1251HadErrors bytes then .Bytes bytes
  else .String (utf8Encode (cp1251Decode bytes))

/-- Helper: the byte list of an ASCII string literal. -/
def bytesOf (s : String) : Input := s.data.map Char.toNat

/-- The opening field delimiter byte. -/
def ob : Nat := 123

/-- The closing field delimiter byte. -/
def cb : Nat := 125

/-- Helper: a delimited field around the given bytes. -/
def wrap (s : Input) : Input := [ob] ++ s ++ [cb]

/-- The entries among a document's lines, in document order. -/
def entriesOf (lines : List Line) : List Entry :=
  lines.filterMap fun
    | .Entry e => some e
    | _ => none

/-- The values of the entries carrying primary index `i`, in document
order. -/
def valuesAt (i : Nat) (lines : List Line) : List Input :=
  (entriesOf lines).filterMap fun e => if e.index = i then some e.value else none

/-- The number of entries carrying primary index `i`. -/
def entryCount (i : Nat) (lines : List Line) : Nat := (valuesAt i lines).length

/-- The sub-index/value pairs stored under primary index `i`, in key
order. -/
def blockOf (i : Nat) (l : DictList) : List (Nat × MsgLine) :=
  (l.filter (fun e => e.1.1 == i)).map (fun e => (e.1.2, e.2))

/-- `enumList k vs` pairs consecutive indices starting at `k` with the
elements of `vs`. -/
def enumList : Nat → List MsgLine → List (Nat × MsgLine)
  | _, [] => []
  | k, v :: vs => (k, v) :: enumList (k + 1) vs

/-- A run of inserts, as a client performing successive
`MsgDictionary::insert` calls; any panic aborts the run. -/
def runInserts : List (Nat × MsgLine) → MsgDictionary → Option MsgDictionary
  | [], d => some d
  | (i, v) :: rest, d =>
    match d.insert i v with
    | some d' => runInserts rest d'
    | none => none

/-! ### Order facts about composite keys -/

/-- Unfolding of the composite-key order. -/
theorem keyLtb_iff (a b : Nat × Nat) :
    keyLtb a b = true ↔ (a.1 < b.1 ∨ (a.1 = b.1 ∧ a.2 < b.2)) := by
  simp [keyLtb]

/-- The composite-key order is transitive. -/
theorem keyLtb_trans {a b c : Nat × Nat} (h1 : keyLtb a b = true)
    (h2 : keyLtb b c = true) : keyLtb a c = true := by
  rcases a with ⟨a1, a2⟩; rcases b with ⟨b1, b2⟩; rcases c with ⟨c1, c2⟩
  simp only [keyLtb_iff] at *
  omega

/-- The composite-key order is irreflexive in the strong sense. -/
theorem keyLtb_asymm {a b : Nat × Nat} (h1 : keyLtb a b = true)
    (h2 : keyLtb b a = true) : False := by
  rcases a with ⟨a1, a2⟩; rcases b with ⟨b1, b2⟩
  simp only [keyLtb_iff] at *
  omega

/-- Trichotomy for the composite-key order. -/
theorem keyLtb_tri (a b : Nat × Nat) :
    keyLtb a b = true ∨ a = b ∨ keyLtb b a = true := by
  rcases a with ⟨a1, a2⟩; rcases b with ⟨b1, b2⟩
  simp only [keyLtb_iff, Prod.mk.injEq]
  omega

/-- The entry list of a dictionary is strictly ascending in key order,
as a `BTreeMap`'s iteration is. -/
def DSorted (l : DictList) : Prop :=
  List.Pairwise (fun a b => keyLtb a.1 b.1 = true) l

/-! ### Facts about `enumList` -/

/-- `enumList` distributes over append, shifting the start index. -/
theorem enumList_append (vs ws : List MsgLine) :
    ∀ k, enumList k (vs ++ ws) = enumList k vs ++ enumList (k + vs.length) ws := by
  induction vs with
  | nil => intro k; simp [enumList]
  | cons v vs ih =>
    intro k
    have h0 : enumList k ((v :: vs) ++ ws) = (k, v) :: enumList (k + 1) (vs ++ ws) := rfl
    have h2 : enumList k (v :: vs) = (k, v) :: enumList (k + 1) vs := rfl
    rw [h0, ih (k + 1), h2, List.cons_append]
    have h3 : k + 1 + vs.length = k + (v :: vs).length := by
      simp only [List.length_cons]; omega
    rw [h3]

/-- Filtering an `enumList` below a bound keeps exactly an initial
segment. -/
theorem enumList_filter_lt (M : Nat) (vs : List MsgLine) :
    ∀ k, (enumList k vs).filter (fun p => decide (p.1 < M)) =
      enumList k (vs.take (M - k)) := by
  induction vs with
  | nil => intro k; simp [enumList]
  | cons v vs ih =>
    intro k
    show ((k, v) :: enumList (k + 1) vs).filter (fun p => decide (p.1 < M)) = _
    rw [List.filter_cons]
    by_cases hk : k < M
    · rw [if_pos (by simpa using hk)]
      have h1 : M - k = (M - (k + 1)) + 1 := by omega
      rw [h1, List.take_succ_cons]
      show _ = (k, v) :: enumList (k + 1) (vs.take (M - (k + 1)))
      rw [ih (k + 1)]
    · rw [if_neg (by simpa using hk)]
      rw [ih (k + 1)]
      have h1 : M - k = 0 := by omega
      have h3 : M - (k + 1) = 0 := by omega
      rw [h1, h3]
      rfl

/-- The last element of an `enumList`. -/
theorem enumList_getLast? (vs : List MsgLine) :
    ∀ k, (enumList k vs).getLast? =
      vs.getLast?.map (fun v => (k + vs.length - 1, v)) := by
  induction vs with
  | nil => intro k; simp [enumList]
  | cons v vs ih =>
    intro k
    cases vs with
    | nil => simp [enumList]
    | cons w ws =>
      have h0 : enumList k (v :: w :: ws) =
          (k, v) :: enumList (k + 1) (w :: ws) := rfl
      have h1 : enumList (k + 1) (w :: ws) =
          (k + 1, w) :: enumList (k + 2) ws := rfl
      rw [h0, h1, List.getLast?_cons_cons, ← h1, ih (k + 1)]
      have h2 : (v :: w :: ws).getLast? = (w :: ws).getLast? :=
        List.getLast?_cons_cons
      rw [h2]
      have harg : (fun u => (k + 1 + (w :: ws).length - 1, u)) =
          (fun u : MsgLine => (k + (v :: w :: ws).length - 1, u)) := by
        funext u
        have hn : k + 1 + (w :: ws).length - 1 = k + (v :: w :: ws).length - 1 := by
          simp only [List.length_cons]
          omega
        rw [hn]
      rw [harg]

/-- Indices in an `enumList` lie in the translated range. -/
theorem enumList_mem_bound {p : Nat × MsgLine} (vs : List MsgLine) :
    ∀ k, p ∈ enumList k vs → k ≤ p.1 ∧ p.1 < k + vs.length := by
  induction vs with
  | nil => intro k h; simp [enumList] at h
  | cons v vs ih =>
    intro k h
    simp only [enumList, List.mem_cons] at h
    rcases h with h | h
    · subst h
      show k ≤ k ∧ k < k + (v :: vs).length
      simp only [List.length_cons]
      omega
    · have := ih (k + 1) h
      simp only [List.length_cons]
      omega

/-- Every index in the translated range occurs in an `enumList`. -/
theorem enumList_mem_exists {s : Nat} (vs : List MsgLine) :
    ∀ k, k ≤ s → s < k + vs.length → ∃ w, (s, w) ∈ enumList k vs := by
  induction vs with
  | nil => intro k h1 h2; simp at h2; omega
  | cons v vs ih =>
    intro k h1 h2
    by_cases hs : s = k
    · exact ⟨v, by simp [enumList, hs]⟩
    · have h3 : k + 1 ≤ s := by omega
      have h4 : s < (k + 1) + vs.length := by simp at h2; omega
      obtain ⟨w, hw⟩ := ih (k + 1) h3 h4
      exact ⟨w, by simp [enumList, hw]⟩

/-- The indices of an `enumList` are the contiguous run
`k, k+1, ..., k+len-1`. -/
theorem enumList_map_fst (vs : List MsgLine) :
    ∀ k, (enumList k vs).map Prod.fst = List.range' k vs.length := by
  induction vs with
  | nil => intro k; simp [enumList]
  | cons v vs ih => intro k; simp [enumList, List.range'_succ, ih (k + 1)]

/-! ### Filter and map plumbing -/

/-- The range filter of `MsgDictionary::insert` splits into the
primary-index filter followed by the sub-index bound. -/
theorem filter_pair_split (l : DictList) (i M : Nat) :
    l.filter (fun e => e.1.1 == i && decide (e.1.2 < M)) =
    (l.filter (fun e => e.1.1 == i)).filter (fun e => decide (e.1.2 < M)) := by
  rw [List.filter_filter]
  exact List.filter_congr (fun a _ => Bool.and_comm _ _)

/-- Projecting to sub-index/value pairs commutes with the sub-index
bound filter. -/
theorem map_pair_filter (M : Nat) (L : DictList) :
    (L.filter (fun e => decide (e.1.2 < M))).map (fun e => (e.1.2, e.2)) =
    (L.map (fun e => (e.1.2, e.2))).filter (fun p => decide (p.1 < M)) := by
  induction L with
  | nil => rfl
  | cons e t ih =>
    simp only [List.filter_cons, List.map_cons]
    by_cases h : e.1.2 < M
    · rw [if_pos (by simpa using h), if_pos (by simpa using h), List.map_cons, ih]
    · rw [if_neg (by simpa using h), if_neg (by simpa using h), ih]

/-- Unfolding of `blockOf` over a cons cell. -/
theorem blockOf_cons (i : Nat) (e : (Nat × Nat) × MsgLine) (t : DictList) :
    blockOf i (e :: t) =
      if e.1.1 = i then (e.1.2, e.2) :: blockOf i t else blockOf i t := by
  simp only [blockOf, List.filter_cons]
  by_cases h : e.1.1 = i
  · rw [if_pos (by simpa using h), if_pos h, List.map_cons]
  · rw [if_neg (by simpa using h), if_neg h]

/-! ### Behavior of `btInsert` -/

/-- Inserting a key strictly above an index's existing sub-indices into
a sorted entry list: nothing is displaced, the new pair lands at the end
of that index's block, and all other blocks are untouched. -/
theorem btInsert_fresh (i n : Nat) (v : MsgLine) :
    ∀ l : DictList, DSorted l → (∀ e ∈ l, e.1.1 = i → e.1.2 < n) →
    ∃ l', btInsert (i, n) v l = (l', none) ∧ DSorted l' ∧
      blockOf i l' = blockOf i l ++ [(n, v)] ∧
      (∀ j, j ≠ i → blockOf j l' = blockOf j l) ∧
      (∀ x ∈ l', x ∈ l ∨ x = ((i, n), v)) := by
  intro l
  induction l with
  | nil =>
    intro _ _
    refine ⟨[((i, n), v)], rfl, ?_, ?_, ?_, ?_⟩
    · exact List.pairwise_singleton _ _
    · simp [blockOf]
    · intro j hj
      simp only [blockOf_cons]
      rw [if_neg (fun hc => hj (by simpa using hc.symm))]
    · intro x hx
      right
      simpa using hx
  | cons e t ih =>
    intro hs hlt
    obtain ⟨hse, hst⟩ := List.pairwise_cons.mp hs
    by_cases hlt1 : keyLtb (i, n) e.1 = true
    · have hbt : btInsert (i, n) v (e :: t) = (((i, n), v) :: e :: t, none) := by
        simp only [btInsert, if_pos hlt1]
      refine ⟨((i, n), v) :: e :: t, hbt, ?_, ?_, ?_, ?_⟩
      · rw [DSorted, List.pairwise_cons]
        refine ⟨?_, hs⟩
        intro a ha
        rcases List.mem_cons.mp ha with h | h
        · subst h; exact hlt1
        · exact keyLtb_trans hlt1 (hse a h)
      · have hfil : (e :: t).filter (fun x => x.1.1 == i) = [] := by
          rw [List.filter_eq_nil_iff]
          intro a ha hai
          have hai' : a.1.1 = i := by simpa using hai
          have h1 : keyLtb a.1 (i, n) = true := by
            rw [keyLtb_iff]
            right
            exact ⟨hai', hlt a ha hai'⟩
          have h2 : keyLtb (i, n) a.1 = true := by
            rcases List.mem_cons.mp ha with h | h
            · subst h; exact hlt1
            · exact keyLtb_trans hlt1 (hse a h)
          exact keyLtb_asymm h1 h2
        have hemp : blockOf i (e :: t) = [] := by
          simp [blockOf, hfil]
        rw [blockOf_cons, if_pos rfl, hemp]
        rfl
      · intro j hj
        rw [blockOf_cons]
        rw [if_neg (fun hc => hj (by simpa using hc.symm))]
      · intro x hx
        rcases List.mem_cons.mp hx with h | h
        · right; exact h
        · left; exact h
    · by_cases heq : (i, n) = e.1
      · exfalso
        have hei : e.1.1 = i := by rw [← heq]
        have := hlt e (List.mem_cons_self e t) hei
        rw [← heq] at this
        exact absurd this (lt_irrefl n)
      · obtain ⟨t', hbt', hsort', hbi, hbj, hmem⟩ :=
          ih hst (fun e' he' hi' => hlt e' (List.mem_cons_of_mem _ he') hi')
        have hbt : btInsert (i, n) v (e :: t) = (e :: t', none) := by
          simp only [btInsert, if_neg hlt1, if_neg heq, hbt']
        have hlt2 : keyLtb e.1 (i, n) = true := by
          rcases keyLtb_tri (i, n) e.1 with h | h | h
          · exact absurd h hlt1
          · exact absurd h heq
          · exact h
        refine ⟨e :: t', hbt, ?_, ?_, ?_, ?_⟩
        · rw [DSorted, List.pairwise_cons]
          refine ⟨?_, hsort'⟩
          intro a ha
          rcases hmem a ha with h | h
          · exact hse a h
          · rw [h]; exact hlt2
        · rw [blockOf_cons, blockOf_cons, hbi]
          by_cases hei : e.1.1 = i
          · rw [if_pos hei, if_pos hei, List.cons_append]
          · rw [if_neg hei, if_neg hei]
        · intro j hj
          rw [blockOf_cons, blockOf_cons, hbj j hj]
        · intro x hx
          rcases List.mem_cons.mp hx with h | h
          · left; rw [h]; exact List.mem_cons_self e t
          · rcases hmem x h with h' | h'
            · left; exact List.mem_cons_of_mem _ h'
            · right; exact h'

/-- Inserting a key already present in a sorted entry list displaces an
old value (the `assert_eq!(old, None)` in `MsgDictionary::insert`
fails). -/
theorem btInsert_dup (k : Nat × Nat) (v : MsgLine) :
    ∀ l : DictList, DSorted l → ∀ e₀ ∈ l, e₀.1 = k →
    ∃ w, (btInsert k v l).2 = some w := by
  intro l
  induction l with
  | nil => intro _ e₀ h _; exact absurd h (List.not_mem_nil e₀)
  | cons e t ih =>
    intro hs e₀ hmem hk
    obtain ⟨hse, hst⟩ := List.pairwise_cons.mp hs
    by_cases h1 : keyLtb k e.1 = true
    · exfalso
      rcases List.mem_cons.mp hmem with h | h
      · rw [h] at hk
        rw [hk] at h1
        exact keyLtb_asymm h1 h1
      · have := hse e₀ h
        rw [hk] at this
        exact keyLtb_asymm h1 this
    · by_cases h2 : k = e.1
      · refine ⟨e.2, ?_⟩
        simp only [btInsert, if_neg h1, if_pos h2]
      · have hmemt : e₀ ∈ t := by
          rcases List.mem_cons.mp hmem with h | h
          · exfalso
            rw [h] at hk
            exact h2 hk.symm
          · exact h
        obtain ⟨w, hw⟩ := ih hst e₀ hmemt hk
        refine ⟨w, ?_⟩
        simp only [btInsert, if_neg h1, if_neg h2]
        rcases hbt : btInsert k v t with ⟨t', old⟩
        rw [hbt] at hw
        simpa using hw

/-! ### The sub-index allocation of `MsgDictionary::insert` -/

/-- When the block under index `i` holds `vs.length ≤ u32::MAX` values,
the range query of `insert` sees the whole block and allocates the next
sub-index `vs.length`. -/
theorem allocSub_eq_len (i : Nat) (l : DictList) (vs : List MsgLine)
    (hb : blockOf i l = enumList 0 vs) (hlen : vs.length ≤ 4294967295) :
    allocSub i l = vs.length := by
  have hmap : ((l.filter (fun e => e.1.1 == i && decide (e.1.2 < 4294967295))).map
      (fun e => (e.1.2, e.2))) = enumList 0 vs := by
    rw [filter_pair_split, map_pair_filter]
    have hbl : (l.filter (fun e => e.1.1 == i)).map (fun e => (e.1.2, e.2)) =
        blockOf i l := rfl
    rw [hbl, hb, enumList_filter_lt]
    rw [Nat.sub_zero, List.take_of_length_le hlen]
  have hlast := congrArg List.getLast? hmap
  rw [List.getLast?_map, enumList_getLast?] at hlast
  cases hvs : vs.getLast? with
  | none =>
    have hvnil : vs = [] := by
      cases vs with
      | nil => rfl
      | cons w ws => exact absurd hvs (by simp)
    rw [hvs] at hlast
    simp only [Option.map_none'] at hlast
    have hnone := Option.map_eq_none'.mp hlast
    simp only [allocSub, hnone]
    rw [hvnil]
    rfl
  | some w =>
    rw [hvs] at hlast
    simp only [Option.map_some'] at hlast
    obtain ⟨e, he, hfe⟩ := Option.map_eq_some'.mp hlast
    have hvpos : 0 < vs.length := by
      cases vs with
      | nil => exact absurd hvs (by simp)
      | cons w' ws => simp
    have h12 : e.1.2 = 0 + vs.length - 1 := by
      have := congrArg Prod.fst hfe
      simpa using this
    simp only [allocSub, he]
    omega

/-- When the block under index `i` already holds `2^32` values, the
exclusive range end hides the entry at sub-index `u32::MAX`, so `insert`
allocates `u32::MAX` — which is occupied. -/
theorem allocSub_eq_full (i : Nat) (l : DictList) (vs : List MsgLine)
    (hb : blockOf i l = enumList 0 vs) (hlen : vs.length = 4294967296) :
    allocSub i l = 4294967295 := by
  have hmap : ((l.filter (fun e => e.1.1 == i && decide (e.1.2 < 4294967295))).map
      (fun e => (e.1.2, e.2))) = enumList 0 (vs.take 4294967295) := by
    rw [filter_pair_split, map_pair_filter]
    have hbl : (l.filter (fun e => e.1.1 == i)).map (fun e => (e.1.2, e.2)) =
        blockOf i l := rfl
    rw [hbl, hb, enumList_filter_lt, Nat.sub_zero]
  have hlast := congrArg List.getLast? hmap
  rw [List.getLast?_map, enumList_getLast?] at hlast
  have htlen : (vs.take 4294967295).length = 4294967295 := by
    rw [List.length_take, hlen]
    exact Nat.min_eq_left (by omega)
  have htne : vs.take 4294967295 ≠ [] := by
    intro hc
    rw [hc] at htlen
    simp at htlen
  obtain ⟨w, hw⟩ := Option.isSome_iff_exists.mp (List.getLast?_isSome.mpr htne)
  rw [hw] at hlast
  simp only [Option.map_some'] at hlast
  obtain ⟨e, he, hfe⟩ := Option.map_eq_some'.mp hlast
  have h12 : e.1.2 = 0 + (vs.take 4294967295).length - 1 := by
    have := congrArg Prod.fst hfe
    simpa using this
  simp only [allocSub, he]
  omega

/-! ### Characterization of `MsgDictionary::insert` -/

/-- Successful insert: while the block under `i` holds at most
`u32::MAX` values, `insert` appends the new value at the next sub-index,
keeps the list sorted, and leaves every other block unchanged. -/
theorem insert_some_char (i : Nat) (v : MsgLine) (l : DictList) (vs : List MsgLine)
    (hs : DSorted l) (hb : blockOf i l = enumList 0 vs)
    (hlen : vs.length ≤ 4294967295) :
    ∃ l', MsgDictionary.insert ⟨l⟩ i v = some ⟨l'⟩ ∧ DSorted l' ∧
      blockOf i l' = enumList 0 (vs ++ [v]) ∧
      ∀ j, j ≠ i → blockOf j l' = blockOf j l := by
  have ha : allocSub i l = vs.length := allocSub_eq_len i l vs hb hlen
  have hfresh : ∀ e ∈ l, e.1.1 = i → e.1.2 < vs.length := by
    intro e he hei
    have hmem : (e.1.2, e.2) ∈ blockOf i l := by
      apply List.mem_map_of_mem
      exact List.mem_filter.mpr ⟨he, by simpa using hei⟩
    rw [hb] at hmem
    have := enumList_mem_bound vs 0 hmem
    simpa using this.2
  obtain ⟨l', hbt, hsort, hbi, hbj, _⟩ := btInsert_fresh i vs.length v l hs hfresh
  refine ⟨l', ?_, hsort, ?_, hbj⟩
  · simp only [MsgDictionary.insert, ha, hbt]
  · rw [hbi, hb, enumList_append]
    simp [enumList]

/-- Failing insert: once the block under `i` holds `2^32` values, the
allocator picks the occupied sub-index `u32::MAX` and the insert
assertion fails (a panic). -/
theorem insert_none_full (i : Nat) (v : MsgLine) (l : DictList) (vs : List MsgLine)
    (hs : DSorted l) (hb : blockOf i l = enumList 0 vs)
    (hlen : vs.length = 4294967296) :
    MsgDictionary.insert ⟨l⟩ i v = none := by
  have ha : allocSub i l = 4294967295 := allocSub_eq_full i l vs hb hlen
  obtain ⟨w, hw⟩ := enumList_mem_exists vs 0 (Nat.zero_le 4294967295) (by omega)
  rw [← hb] at hw
  obtain ⟨e, he, hfe⟩ := List.mem_map.mp hw
  have hel : e ∈ l := (List.mem_filter.mp he).1
  have hei : e.1.1 = i := by
    have := (List.mem_filter.mp he).2
    simpa using this
  have he2 : e.1.2 = 4294967295 := by
    have := congrArg Prod.fst hfe
    simpa using this
  have hk : e.1 = (i, 4294967295) := by
    rcases hp : e.1 with ⟨a, b⟩
    rw [hp] at hei he2
    simp at hei he2
    rw [hei, he2]
  obtain ⟨w', hw'⟩ := btInsert_dup (i, 4294967295) v l hs e hel hk
  simp only [MsgDictionary.insert, ha]
  rcases hbt : btInsert (i, 4294967295) v l with ⟨l₂, old⟩
  rw [hbt] at hw'
  simp only at hw'
  rw [hw']

/-! ### Unfolding lemmas for the builder bookkeeping -/

/-- `entriesOf` over an entry line. -/
theorem entriesOf_entry_cons (e : Entry) (rest : List Line) :
    entriesOf (Line.Entry e :: rest) = e :: entriesOf rest := by
  simp [entriesOf]

/-- `entriesOf` over a blank line. -/
theorem entriesOf_break_cons (rest : List Line) :
    entriesOf (Line.Break :: rest) = entriesOf rest := by
  simp [entriesOf]

/-- `entriesOf` over a comment line. -/
theorem entriesOf_comment_cons (t : Input) (rest : List Line) :
    entriesOf (Line.Comment t :: rest) = entriesOf rest := by
  simp [entriesOf]

/-- `valuesAt` over an entry line. -/
theorem valuesAt_entry_cons (j : Nat) (e : Entry) (rest : List Line) :
    valuesAt j (Line.Entry e :: rest) =
      if e.index = j then e.value :: valuesAt j rest else valuesAt j rest := by
  simp only [valuesAt, entriesOf_entry_cons, List.filterMap_cons]
  by_cases h : e.index = j
  · rw [if_pos h, if_pos h]
  · rw [if_neg h, if_neg h]

/-- `valuesAt` over a blank line. -/
theorem valuesAt_break_cons (j : Nat) (rest : List Line) :
    valuesAt j (Line.Break :: rest) = valuesAt j rest := by
  simp only [valuesAt, entriesOf_break_cons]

/-- `valuesAt` over a comment line. -/
theorem valuesAt_comment_cons (j : Nat) (t : Input) (rest : List Line) :
    valuesAt j (Line.Comment t :: rest) = valuesAt j rest := by
  simp only [valuesAt, entriesOf_comment_cons]

/-! ### The reachability invariant of the dictionary -/

/-- Invariant relating a dictionary state to the per-index lists `m` of
values inserted so far: the entry list is sorted, and the block under
each index is exactly the insertion-ordered enumeration of `m i`. -/
def DInv (d : MsgDictionary) (m : Nat → List MsgLine) : Prop :=
  DSorted d.index_to_line ∧
  ∀ i, blockOf i d.index_to_line = enumList 0 (m i) ∧ (m i).length ≤ 4294967296

/-- The empty dictionary satisfies the invariant with no values. -/
theorem DInv_empty : DInv emptyMsgDictionary (fun _ => []) := by
  refine ⟨List.Pairwise.nil, ?_⟩
  intro i
  exact ⟨rfl, by simp⟩

/-- The invariant is stable under pointwise rewriting of `m`. -/
theorem DInv_congr {d : MsgDictionary} {m m' : Nat → List MsgLine}
    (h : DInv d m) (he : ∀ i, m i = m' i) : DInv d m' := by
  refine ⟨h.1, ?_⟩
  intro i
  rw [← he i]
  exact h.2 i

/-- A successful insert extends the invariant with the new value. -/
theorem insert_DInv_some {d : MsgDictionary} {m : Nat → List MsgLine}
    {i : Nat} {v : MsgLine} {d' : MsgDictionary}
    (hinv : DInv d m) (hins : d.insert i v = some d') :
    DInv d' (fun j => if j = i then m j ++ [v] else m j) := by
  obtain ⟨hs, hbl⟩ := hinv
  rcases d with ⟨l⟩
  by_cases hfull : (m i).length = 4294967296
  · exfalso
    have := insert_none_full i v l (m i) hs (hbl i).1 hfull
    rw [this] at hins
    exact absurd hins (by simp)
  · have hlen : (m i).length ≤ 4294967295 := by
      have := (hbl i).2
      omega
    obtain ⟨l', hsome, hsort, hbi, hbj⟩ :=
      insert_some_char i v l (m i) hs (hbl i).1 hlen
    rw [hsome] at hins
    injection hins with hd
    subst hd
    refine ⟨hsort, ?_⟩
    intro j
    by_cases hj : j = i
    · subst hj
      have h1 : (fun j' => if j' = j then m j' ++ [v] else m j') j = m j ++ [v] := by
        simp
      constructor
      · rw [h1]
        exact hbi
      · rw [h1, List.length_append]
        simp only [List.length_singleton]
        omega
    · have h1 : (fun j' => if j' = i then m j' ++ [v] else m j') j = m j := by
        simp [hj]
      constructor
      · rw [h1]
        exact (hbj j hj).trans (hbl j).1
      · rw [h1]
        exact (hbl j).2

/-- While an index's block is not yet full, inserting under it
succeeds. -/
theorem insert_DInv_progress {d : MsgDictionary} {m : Nat → List MsgLine}
    {i : Nat} (v : MsgLine)
    (hinv : DInv d m) (hlt : (m i).length < 4294967296) :
    ∃ d', d.insert i v = some d' := by
  obtain ⟨hs, hbl⟩ := hinv
  rcases d with ⟨l⟩
  obtain ⟨l', hsome, _, _, _⟩ :=
    insert_some_char i v l (m i) hs (hbl i).1 (by omega)
  exact ⟨⟨l'⟩, hsome⟩

/-- Once an index's block holds `2^32` values, inserting under it
panics. -/
theorem insert_DInv_full {d : MsgDictionary} {m : Nat → List MsgLine}
    {i : Nat} (v : MsgLine)
    (hinv : DInv d m) (heq : (m i).length = 4294967296) :
    d.insert i v = none := by
  obtain ⟨hs, hbl⟩ := hinv
  rcases d with ⟨l⟩
  exact insert_none_full i v l (m i) hs (hbl i).1 heq

/-! ### Characterization of the dictionary builder -/

/-- Master characterization: a successful build extends every index's
value list by the converted values of that index's entries, in document
order. -/
theorem buildDict_char (conv : Input → MsgLine) :
    ∀ (lines : List Line) (d : MsgDictionary) (m : Nat → List MsgLine)
      (d' : MsgDictionary),
      DInv d m → buildDict conv lines d = some d' →
      DInv d' (fun j => m j ++ (valuesAt j lines).map conv) := by
  intro lines
  induction lines with
  | nil =>
    intro d m d' hinv hb
    simp only [buildDict] at hb
    injection hb with hd
    subst hd
    apply DInv_congr hinv
    intro j
    simp [valuesAt, entriesOf]
  | cons ln rest ih =>
    intro d m d' hinv hb
    cases ln with
    | Entry e =>
      simp only [buildDict] at hb
      by_cases hsec : e.secondary = []
      · rw [if_pos hsec] at hb
        cases hins : d.insert e.index (conv e.value) with
        | none =>
          rw [hins] at hb
          exact absurd hb (by simp)
        | some d₁ =>
          rw [hins] at hb
          have hinv₁ := insert_DInv_some hinv hins
          have hres := ih d₁ _ d' hinv₁ hb
          apply DInv_congr hres
          intro j
          rw [valuesAt_entry_cons]
          by_cases hj : j = e.index
          · rw [if_pos hj.symm, if_pos (by rw [hj])]
            rw [List.map_cons, List.append_assoc]
            rfl
          · rw [if_neg hj, if_neg (fun hc => hj hc.symm)]
      · rw [if_neg hsec] at hb
        exact absurd hb (by simp)
    | Break =>
      simp only [buildDict] at hb
      have hres := ih d m d' hinv hb
      apply DInv_congr hres
      intro j
      rw [valuesAt_break_cons]
    | Comment t =>
      simp only [buildDict] at hb
      have hres := ih d m d' hinv hb
      apply DInv_congr hres
      intro j
      rw [valuesAt_comment_cons]

/-- The builder aborts (panics) on any document containing an entry with
a non-empty secondary field, from any starting dictionary. -/
theorem buildDict_malformed (conv : Input → MsgLine) :
    ∀ (lines : List Line) (d : MsgDictionary),
      (∃ e ∈ entriesOf lines, e.secondary ≠ []) →
      buildDict conv lines d = none := by
  intro lines
  induction lines with
  | nil =>
    intro d h
    obtain ⟨e, he, _⟩ := h
    simp [entriesOf] at he
  | cons ln rest ih =>
    intro d h
    cases ln with
    | Entry e =>
      obtain ⟨e₀, he₀, hsec₀⟩ := h
      rw [entriesOf_entry_cons] at he₀
      simp only [buildDict]
      by_cases hsec : e.secondary = []
      · rw [if_pos hsec]
        have hrest : ∃ e' ∈ entriesOf rest, e'.secondary ≠ [] := by
          rcases List.mem_cons.mp he₀ with h' | h'
          · exfalso
            rw [h'] at hsec₀
            exact hsec₀ hsec
          · exact ⟨e₀, h', hsec₀⟩
        cases hins : d.insert e.index (conv e.value) with
        | none => rfl
        | some d₁ => exact ih d₁ hrest
      · rw [if_neg hsec]
    | Break =>
      obtain ⟨e₀, he₀, hsec₀⟩ := h
      rw [entriesOf_break_cons] at he₀
      simp only [buildDict]
      exact ih d ⟨e₀, he₀, hsec₀⟩
    | Comment t =>
      obtain ⟨e₀, he₀, hsec₀⟩ := h
      rw [entriesOf_comment_cons] at he₀
      simp only [buildDict]
      exact ih d ⟨e₀, he₀, hsec₀⟩

/-- The builder succeeds on any document whose entries all have empty
secondary fields, provided no index's block would exceed `2^32`
values. -/
theorem buildDict_total (conv : Input → MsgLine) :
    ∀ (lines : List Line) (d : MsgDictionary) (m : Nat → List MsgLine),
      DInv d m → (∀ e ∈ entriesOf lines, e.secondary = []) →
      (∀ i, (m i).length + entryCount i lines ≤ 4294967296) →
      ∃ d', buildDict conv lines d = some d' := by
  intro lines
  induction lines with
  | nil =>
    intro d m _ _ _
    exact ⟨d, rfl⟩
  | cons ln rest ih =>
    intro d m hinv hall hcnt
    cases ln with
    | Entry e =>
      have hsec : e.secondary = [] := by
        apply hall e
        rw [entriesOf_entry_cons]
        exact List.mem_cons_self e _
      have hcnt_e : entryCount e.index (Line.Entry e :: rest) =
          entryCount e.index rest + 1 := by
        simp [entryCount, valuesAt_entry_cons]
      have hlt : (m e.index).length < 4294967296 := by
        have := hcnt e.index
        omega
      obtain ⟨d₁, hins⟩ := insert_DInv_progress (conv e.value) hinv hlt
      have hinv₁ := insert_DInv_some hinv hins
      have hall₁ : ∀ e' ∈ entriesOf rest, e'.secondary = [] := by
        intro e' he'
        apply hall e'
        rw [entriesOf_entry_cons]
        exact List.mem_cons_of_mem _ he'
      have hcnt₁ : ∀ i, ((fun j => if j = e.index then m j ++ [conv e.value]
          else m j) i).length + entryCount i rest ≤ 4294967296 := by
        intro i
        have h1 : (fun j => if j = e.index then m j ++ [conv e.value] else m j) i
            = if i = e.index then m i ++ [conv e.value] else m i := by
          simp
        rw [h1]
        by_cases hi : i = e.index
        · rw [if_pos hi, List.length_append, hi]
          have h2 := hcnt i
          rw [hi, hcnt_e] at h2
          simp only [List.length_singleton]
          omega
        · rw [if_neg hi]
          have h2 := hcnt i
          have hle : entryCount i rest ≤ entryCount i (Line.Entry e :: rest) := by
            simp only [entryCount, valuesAt_entry_cons]
            by_cases he : e.index = i
            · rw [if_pos he]
              simp only [List.length_cons]
              omega
            · rw [if_neg he]
          omega
      obtain ⟨d', hbd⟩ := ih d₁ _ hinv₁ hall₁ hcnt₁
      refine ⟨d', ?_⟩
      simp only [buildDict, if_pos hsec, hins]
      exact hbd
    | Break =>
      have hall₁ : ∀ e' ∈ entriesOf rest, e'.secondary = [] := by
        intro e' he'
        apply hall e'
        rw [entriesOf_break_cons]
        exact he'
      have hcnt₁ : ∀ i, (m i).length + entryCount i rest ≤ 4294967296 := by
        intro i
        have := hcnt i
        simp only [entryCount, valuesAt_break_cons] at this ⊢
        omega
      obtain ⟨d', hbd⟩ := ih d m hinv hall₁ hcnt₁
      exact ⟨d', by simp only [buildDict]; exact hbd⟩
    | Comment t =>
      have hall₁ : ∀ e' ∈ entriesOf rest, e'.secondary = [] := by
        intro e' he'
        apply hall e'
        rw [entriesOf_comment_cons]
        exact he'
      have hcnt₁ : ∀ i, (m i).length + entryCount i rest ≤ 4294967296 := by
        intro i
        have := hcnt i
        simp only [entryCount, valuesAt_comment_cons] at this ⊢
        omega
      obtain ⟨d', hbd⟩ := ih d m hinv hall₁ hcnt₁
      exact ⟨d', by simp only [buildDict]; exact hbd⟩

/-! ### Runs of client inserts -/

/-- `runInserts` splits over list append. -/
theorem runInserts_append (ops1 ops2 : List (Nat × MsgLine)) :
    ∀ d, runInserts (ops1 ++ ops2) d =
      match runInserts ops1 d with
      | some d' => runInserts ops2 d'
      | none => none := by
  induction ops1 with
  | nil => intro d; rfl
  | cons op rest ih =>
    intro d
    rcases op with ⟨i, v⟩
    simp only [List.cons_append, runInserts]
    cases d.insert i v with
    | none => rfl
    | some d₁ => exact ih d₁

/-- A replicated run of inserts under one index succeeds while the
block stays within `2^32` values, extending the invariant
accordingly. -/
theorem runInserts_replicate (i : Nat) (v : MsgLine) :
    ∀ (k : Nat) (d : MsgDictionary) (m : Nat → List MsgLine),
      DInv d m → (m i).length + k ≤ 4294967296 →
      ∃ d', runInserts (List.replicate k (i, v)) d = some d' ∧
        DInv d' (fun j => if j = i then m j ++ List.replicate k v else m j) := by
  intro k
  induction k with
  | zero =>
    intro d m hinv _
    refine ⟨d, rfl, ?_⟩
    apply DInv_congr hinv
    intro j
    by_cases hj : j = i
    · simp [hj]
    · simp [hj]
  | succ k ih =>
    intro d m hinv hle
    have hlt : (m i).length < 4294967296 := by omega
    obtain ⟨d₁, hins⟩ := insert_DInv_progress v hinv hlt
    have hinv₁ := insert_DInv_some hinv hins
    have hle₁ : ((fun j => if j = i then m j ++ [v] else m j) i).length + k ≤
        4294967296 := by
      have h1 : (fun j => if j = i then m j ++ [v] else m j) i = m i ++ [v] := by
        simp
      rw [h1, List.length_append]
      simp only [List.length_singleton]
      omega
    obtain ⟨d', hrun, hinv'⟩ := ih d₁ _ hinv₁ hle₁
    refine ⟨d', ?_, ?_⟩
    · rw [List.replicate_succ]
      simp only [runInserts, hins]
      exact hrun
    · apply DInv_congr hinv'
      intro j
      by_cases hj : j = i
      · simp [hj, List.replicate_succ]
      · simp [hj]

/-! ### Lookup through blocks -/

/-- `BTreeMap::get` at a composite key searches only within that
primary index's block. -/
theorem btGet_block : ∀ (l : DictList) (i s : Nat),
    btGet (i, s) l = ((blockOf i l).find? (fun p => p.1 == s)).map Prod.snd := by
  intro l
  induction l with
  | nil => intro i s; rfl
  | cons e t ih =>
    intro i s
    by_cases hk : e.1 = (i, s)
    · have hei : e.1.1 = i := by rw [hk]
      have hes : e.1.2 = s := by rw [hk]
      have h1 : btGet (i, s) (e :: t) = some e.2 := by
        simp only [btGet]
        rw [List.find?_cons_of_pos _ (by simpa using hk)]
      rw [h1, blockOf_cons, if_pos hei]
      rw [List.find?_cons_of_pos _ (by simpa using hes)]
      rfl
    · have h1 : btGet (i, s) (e :: t) = btGet (i, s) t := by
        simp only [btGet]
        rw [List.find?_cons_of_neg _ (by simpa using hk)]
      rw [h1, blockOf_cons]
      by_cases hei : e.1.1 = i
      · rw [if_pos hei]
        have hes : e.1.2 ≠ s := by
          intro hc
          apply hk
          rcases hp : e.1 with ⟨a, b⟩
          rw [hp] at hei hc
          simp at hei hc
          rw [hei, hc]
        rw [List.find?_cons_of_neg _ (by simpa using hes)]
        exact ih i s
      · rw [if_neg hei]
        exact ih i s

/-! ### Parser-level helper lemmas -/

/-- `cut` never produces a recoverable error. -/
theorem cutP_ne_err {α : Type} (p : Input → PResult α) (i : Input) :
    cutP p i ≠ .err := by
  simp only [cutP]
  cases p i <;> simp

/-- `cut` preserves successes exactly. -/
theorem cutP_ok_iff {α : Type} (p : Input → PResult α) (i r : Input) (a : α) :
    cutP p i = .ok r a ↔ p i = .ok r a := by
  simp only [cutP]
  cases p i <;> simp

/-! ### Concrete documents used in the scenario claims -/

/-- The line-feed byte. -/
def nl : Input := [10]

/-- The input of the basic scenario:
three entries over two primary indices. -/
def c2input : Input :=
  wrap (bytesOf ("10")) ++ wrap [] ++ wrap (bytesOf ("Global map")) ++ nl ++
  wrap (bytesOf ("15")) ++ wrap [] ++ wrap (bytesOf ("20car")) ++ nl ++
  wrap (bytesOf ("15")) ++ wrap [] ++ wrap (bytesOf ("23world"))

/-- The expected dictionary of the basic scenario. -/
def c2dict : MsgDictionary :=
  ⟨[((10, 0), .String (bytesOf ("Global map"))),
    ((15, 0), .String (bytesOf ("20car"))),
    ((15, 1), .String (bytesOf ("23world")))]⟩

/-- C2: parsing the basic scenario input with the default parse function
succeeds and produces exactly the three composite-key bindings
`(10,0) = "Global map"`, `(15,0) = "20car"`, `(15,1) = "23world"`. -/
theorem parse_basic_scenario : parse_msg c2input = .ok c2dict := by
  rfl

/-- C1: in every dictionary the parser builds, the sub-indices stored
under each primary index are exactly the contiguous run `0..n-1`, where
`n` is the number of entries seen with that index, and the `k` entries
sharing one primary index receive sub-indices `0..k-1` in document
order (the block enumerates the converted values in that exact
order). -/
theorem dict_subindices_contiguous_and_ordered :
    ∀ (input : Input) (conv : Input → MsgLine) (m : Msg) (d : MsgDictionary),
      tokenize_msg input true = .ok m →
      buildDict conv m.lines emptyMsgDictionary = some d →
      ∀ i, (blockOf i d.index_to_line).map Prod.fst =
             List.range (entryCount i m.lines) ∧
           blockOf i d.index_to_line =
             enumList 0 ((valuesAt i m.lines).map conv) := by
  intro input conv m d _ hb
  have hres := buildDict_char conv m.lines emptyMsgDictionary (fun _ => []) d
    DInv_empty hb
  intro i
  have hbi : blockOf i d.index_to_line =
      enumList 0 ((valuesAt i m.lines).map conv) := by
    have := (hres.2 i).1
    simpa using this
  refine ⟨?_, hbi⟩
  rw [hbi, enumList_map_fst, List.length_map, List.range_eq_range']
  rfl

/-- Witness world for C1: a two-entry document under index `7`. -/
def c1winput : Input :=
  wrap (bytesOf ("7")) ++ wrap [] ++ wrap (bytesOf ("a")) ++ nl ++
  wrap (bytesOf ("7")) ++ wrap [] ++ wrap (bytesOf ("b"))

/-- The tokenized document of the C1 witness input. -/
def c1wmsg : Msg :=
  ⟨[.Entry ⟨7, [], bytesOf ("a"), none⟩, .Entry ⟨7, [], bytesOf ("b"), none⟩]⟩

/-- The dictionary of the C1 witness input. -/
def c1wdict : MsgDictionary :=
  ⟨[((7, 0), .String (bytesOf ("a"))), ((7, 1), .String (bytesOf ("b")))]⟩

/-- Witness for C1 at the concrete two-entry document. -/
theorem dict_subindices_contiguous_and_ordered_witness :
    tokenize_msg c1winput true = .ok c1wmsg ∧
    buildDict defaultLineConverter c1wmsg.lines emptyMsgDictionary =
      some c1wdict ∧
    ((blockOf 7 c1wdict.index_to_line).map Prod.fst =
       List.range (entryCount 7 c1wmsg.lines) ∧
     blockOf 7 c1wdict.index_to_line =
       enumList 0 ((valuesAt 7 c1wmsg.lines).map defaultLineConverter)) :=
  ⟨rfl, rfl,
   dict_subindices_contiguous_and_ordered c1winput defaultLineConverter
     c1wmsg c1wdict rfl rfl 7⟩

/-! ### Replicated documents and insert runs -/

/-- `entriesOf` over a replicated entry line. -/
theorem entriesOf_replicate (e : Entry) :
    ∀ k, entriesOf (List.replicate k (Line.Entry e)) = List.replicate k e := by
  intro k
  induction k with
  | zero => rfl
  | succ k ih =>
    rw [List.replicate_succ, List.replicate_succ, entriesOf_entry_cons, ih]

/-- Building a document of `k` identical well-formed entries is the run
of `k` identical inserts. -/
theorem buildDict_replicate_entry (conv : Input → MsgLine) (e : Entry)
    (hsec : e.secondary = []) :
    ∀ k d, buildDict conv (List.replicate k (Line.Entry e)) d =
      runInserts (List.replicate k (e.index, conv e.value)) d := by
  intro k
  induction k with
  | zero => intro d; rfl
  | succ k ih =>
    intro d
    rw [List.replicate_succ, List.replicate_succ]
    simp only [buildDict, runInserts, if_pos hsec]
    cases d.insert e.index (conv e.value) with
    | none => rfl
    | some d₁ => exact ih d₁

/-- A run of `2^32 + 1` inserts under one primary index panics: the
`2^32`-th and later sub-indices are invisible to the exclusive-ended
range query, so the allocator re-picks the occupied `u32::MAX`. -/
theorem runInserts_giant_none :
    runInserts (List.replicate 4294967297 (0, MsgLine.Bytes []))
      emptyMsgDictionary = none := by
  have hsplit : (4294967297 : Nat) = 4294967296 + 1 := by norm_num
  rw [hsplit, List.replicate_add, runInserts_append]
  have hstart : ((fun _ : Nat => ([] : List MsgLine)) 0).length + 4294967296 ≤
      4294967296 := by
    have h : ((fun _ : Nat => ([] : List MsgLine)) 0).length = 0 := rfl
    omega
  obtain ⟨d', hrun, hinv'⟩ := runInserts_replicate 0 (MsgLine.Bytes [])
    4294967296 emptyMsgDictionary (fun _ => []) DInv_empty hstart
  rw [hrun]
  have hfull : ((fun j => if j = 0 then
      ((fun _ : Nat => ([] : List MsgLine)) j) ++
        List.replicate 4294967296 (MsgLine.Bytes [])
      else (fun _ : Nat => ([] : List MsgLine)) j) 0).length = 4294967296 := by
    have h1 : (fun j => if j = 0 then
        ((fun _ : Nat => ([] : List MsgLine)) j) ++
          List.replicate 4294967296 (MsgLine.Bytes [])
        else (fun _ : Nat => ([] : List MsgLine)) j) 0 =
        List.replicate 4294967296 (MsgLine.Bytes []) := by
      show (if (0 : Nat) = 0 then
          ([] : List MsgLine) ++ List.replicate 4294967296 (MsgLine.Bytes [])
          else ([] : List MsgLine)) = List.replicate 4294967296 (MsgLine.Bytes [])
      rw [if_pos rfl, List.nil_append]
    rw [h1, List.length_replicate]
  have hnone := insert_DInv_full (MsgLine.Bytes []) hinv' hfull
  show runInserts (List.replicate 1 (0, MsgLine.Bytes [])) d' = none
  have h2 : List.replicate 1 (0, MsgLine.Bytes []) = [(0, MsgLine.Bytes [])] := rfl
  rw [h2]
  simp only [runInserts, hnone]

/-- C8 counterexample: a concrete sequence of insert calls on an
initially empty dictionary — `2^32 + 1` inserts under primary index
`0` — on which the insert assertion fails (the run aborts). -/
theorem insert_assert_fails_on_giant_run :
    runInserts (List.replicate 4294967297 (0, MsgLine.Bytes []))
      emptyMsgDictionary = none :=
  runInserts_giant_none

/-- Success of an arbitrary run of inserts whose per-index counts stay
within `2^32`. -/
theorem runInserts_total :
    ∀ (ops : List (Nat × MsgLine)) (d : MsgDictionary) (m : Nat → List MsgLine),
      DInv d m →
      (∀ i, (m i).length + (ops.filter (fun p => p.1 == i)).length ≤ 4294967296) →
      ∃ d', runInserts ops d = some d' := by
  intro ops
  induction ops with
  | nil =>
    intro d m _ _
    exact ⟨d, rfl⟩
  | cons op rest ih =>
    intro d m hinv hcnt
    rcases op with ⟨i, v⟩
    have hme : ((i, v).1 == i) = true := by simp
    have hlt : (m i).length < 4294967296 := by
      have h1 := hcnt i
      rw [List.filter_cons, if_pos hme, List.length_cons] at h1
      omega
    obtain ⟨d₁, hins⟩ := insert_DInv_progress v hinv hlt
    have hinv₁ := insert_DInv_some hinv hins
    have hcnt₁ : ∀ j, (((fun j' => if j' = i then m j' ++ [v] else m j') j)).length +
        (rest.filter (fun p => p.1 == j)).length ≤ 4294967296 := by
      intro j
      have h1 := hcnt j
      by_cases hj : j = i
      · have hbeq : ((i, v).1 == j) = true := by simp [hj]
        rw [List.filter_cons, if_pos hbeq, List.length_cons] at h1
        have h2 : (fun j' => if j' = i then m j' ++ [v] else m j') j =
            m j ++ [v] := by simp [hj]
        rw [h2, List.length_append]
        simp only [List.length_singleton]
        omega
      · have hbeq : ¬ ((i, v).1 == j) = true := by simp; omega
        rw [List.filter_cons, if_neg hbeq] at h1
        have h2 : (fun j' => if j' = i then m j' ++ [v] else m j') j = m j := by
          simp [hj]
        rw [h2]
        exact h1
    obtain ⟨d', hrun⟩ := ih d₁ _ hinv₁ hcnt₁
    refine ⟨d', ?_⟩
    simp only [runInserts, hins]
    exact hrun

/-- C8 amended: for every sequence of insert calls on an initially empty
dictionary in which no primary index occurs more than `2^32` times, the
auto-allocation always picks a fresh composite key, no insert
overwrites, and the assertion never fails (the whole run returns a
dictionary). -/
theorem insert_never_overwrites_bounded :
    ∀ (ops : List (Nat × MsgLine)),
      (∀ i, (ops.filter (fun p => p.1 == i)).length ≤ 4294967296) →
      ∃ d, runInserts ops emptyMsgDictionary = some d := by
  intro ops h
  exact runInserts_total ops emptyMsgDictionary (fun _ => []) DInv_empty
    (fun i => by simpa using h i)

/-- A concrete three-insert run used as the C8 witness world. -/
def c8wops : List (Nat × MsgLine) :=
  [(5, MsgLine.Bytes [1]), (5, MsgLine.Bytes [2]), (3, MsgLine.Bytes [9])]

/-- Witness for the amended C8 at a concrete three-insert run. -/
theorem insert_never_overwrites_bounded_witness :
    (∀ i, (c8wops.filter (fun p => p.1 == i)).length ≤ 4294967296) ∧
    (∃ d, runInserts c8wops emptyMsgDictionary = some d) :=
  ⟨fun i => le_trans (List.length_filter_le _ _) (by norm_num [c8wops]),
   insert_never_overwrites_bounded c8wops
     (fun i => le_trans (List.length_filter_le _ _) (by norm_num [c8wops]))⟩

/-! ### C3: the malformed-secondary abort -/

/-- C3 amended: any document containing an entry with non-empty
secondary aborts the builder (no dictionary), and any document whose
entries all have empty secondary fields builds successfully, provided no
primary index occurs more than `2^32` times among its entries. -/
theorem secondary_nonempty_is_fatal :
    (∀ (conv : Input → MsgLine) (lines : List Line) (d : MsgDictionary),
      (∃ e ∈ entriesOf lines, e.secondary ≠ []) →
      buildDict conv lines d = none) ∧
    (∀ (conv : Input → MsgLine) (lines : List Line),
      (∀ e ∈ entriesOf lines, e.secondary = []) →
      (∀ i, entryCount i lines ≤ 4294967296) →
      ∃ d, buildDict conv lines emptyMsgDictionary = some d) := by
  constructor
  · intro conv lines d h
    exact buildDict_malformed conv lines d h
  · intro conv lines hall hcnt
    apply buildDict_total conv lines emptyMsgDictionary (fun _ => []) DInv_empty hall
    intro i
    have h := hcnt i
    simp only [List.length_nil]
    omega

/-- The entry of the giant counterexample document: well-formed, with an
empty secondary field. -/
def giantEntry : Entry := ⟨0, [], [], none⟩

/-- A document of `2^32 + 1` identical well-formed entries. -/
def giantLines : List Line := List.replicate 4294967297 (Line.Entry giantEntry)

/-- C3 counterexample: a document whose entries all have empty secondary
fields on which the builder nevertheless aborts (the sub-index allocator
panics at the `2^32 + 1`-st entry of index `0`). -/
theorem builder_aborts_on_giant_document :
    (∀ e ∈ entriesOf giantLines, e.secondary = []) ∧
    buildDict defaultLineConverter giantLines emptyMsgDictionary = none := by
  constructor
  · intro e he
    rw [giantLines, entriesOf_replicate] at he
    rw [(List.mem_replicate.mp he).2]
    rfl
  · rw [giantLines, buildDict_replicate_entry defaultLineConverter giantEntry rfl]
    have hv : defaultLineConverter giantEntry.value = MsgLine.String [] := rfl
    have hidx : giantEntry.index = 0 := rfl
    rw [hidx, hv]
    have hsplit : (4294967297 : Nat) = 4294967296 + 1 := by norm_num
    rw [hsplit, List.replicate_add, runInserts_append]
    have hstart : ((fun _ : Nat => ([] : List MsgLine)) 0).length + 4294967296 ≤
        4294967296 := by
      have h : ((fun _ : Nat => ([] : List MsgLine)) 0).length = 0 := rfl
      omega
    obtain ⟨d', hrun, hinv'⟩ := runInserts_replicate 0 (MsgLine.String [])
      4294967296 emptyMsgDictionary (fun _ => []) DInv_empty hstart
    rw [hrun]
    have hfull : ((fun j => if j = 0 then
        ((fun _ : Nat => ([] : List MsgLine)) j) ++
          List.replicate 4294967296 (MsgLine.String [])
        else (fun _ : Nat => ([] : List MsgLine)) j) 0).length = 4294967296 := by
      have h1 : (fun j => if j = 0 then
          ((fun _ : Nat => ([] : List MsgLine)) j) ++
            List.replicate 4294967296 (MsgLine.String [])
          else (fun _ : Nat => ([] : List MsgLine)) j) 0 =
          List.replicate 4294967296 (MsgLine.String []) := by
        show (if (0 : Nat) = 0 then
            ([] : List MsgLine) ++ List.replicate 4294967296 (MsgLine.String [])
            else ([] : List MsgLine)) = List.replicate 4294967296 (MsgLine.String [])
        rw [if_pos rfl, List.nil_append]
      rw [h1, List.length_replicate]
    have hnone := insert_DInv_full (MsgLine.String []) hinv' hfull
    show runInserts (List.replicate 1 (0, MsgLine.String [])) d' = none
    have h2 : List.replicate 1 (0, MsgLine.String []) =
        [(0, MsgLine.String [])] := rfl
    rw [h2]
    simp only [runInserts, hnone]

/-- Witness for the amended C3: both halves at small concrete
documents. -/
theorem secondary_nonempty_is_fatal_witness :
    ((∃ e ∈ entriesOf [Line.Entry ⟨1, [120], [118], none⟩],
        e.secondary ≠ []) ∧
      buildDict defaultLineConverter [Line.Entry ⟨1, [120], [118], none⟩]
        emptyMsgDictionary = none) ∧
    ((∀ e ∈ entriesOf [Line.Entry ⟨1, [], [118], none⟩], e.secondary = []) ∧
      (∀ i, entryCount i [Line.Entry ⟨1, [], [118], none⟩] ≤ 4294967296) ∧
      ∃ d, buildDict defaultLineConverter [Line.Entry ⟨1, [], [118], none⟩]
        emptyMsgDictionary = some d) := by
  constructor
  · constructor
    · exact ⟨⟨1, [120], [118], none⟩, by simp [entriesOf], by simp⟩
    · exact secondary_nonempty_is_fatal.1 defaultLineConverter _ _
        ⟨⟨1, [120], [118], none⟩, by simp [entriesOf], by simp⟩
  · refine ⟨?_, ?_, ?_⟩
    · intro e he
      simp [entriesOf] at he
      rw [he]
    · intro i
      have h := List.length_filter_le
        (fun e : Entry => e.index == i) (entriesOf [Line.Entry ⟨1, [], [118], none⟩])
      have h2 : entryCount i [Line.Entry ⟨1, [], [118], none⟩] ≤ 1 := by
        have h3 : entryCount i [Line.Entry ⟨1, [], [118], none⟩] =
            (valuesAt i [Line.Entry ⟨1, [], [118], none⟩]).length := rfl
        by_cases hi : (1 : Nat) = i
        · rw [h3, valuesAt_entry_cons]
          rw [if_pos hi]
          rfl
        · rw [h3, valuesAt_entry_cons]
          rw [if_neg hi]
          exact Nat.zero_le 1
      omega
    · exact secondary_nonempty_is_fatal.2 defaultLineConverter _
        (by intro e he; simp [entriesOf] at he; rw [he])
        (by
          intro i
          have h3 : entryCount i [Line.Entry ⟨1, [], [118], none⟩] =
              (valuesAt i [Line.Entry ⟨1, [], [118], none⟩]).length := rfl
          by_cases hi : (1 : Nat) = i
          · rw [h3, valuesAt_entry_cons, if_pos hi]
            norm_num [valuesAt, entriesOf]
          · rw [h3, valuesAt_entry_cons, if_neg hi]
            norm_num [valuesAt, entriesOf])

/-! ### C4: comments and blank lines are inert -/

/-- The builder restricted to the entry sequence (comments and blanks
already discarded). -/
def buildEntries (conv : Input → MsgLine) : List Entry → MsgDictionary →
    Option MsgDictionary
  | [], d => some d
  | e :: rest, d =>
    if e.secondary = [] then
      match d.insert e.index (conv e.value) with
      | some d' => buildEntries conv rest d'
      | none => none
    else none

/-- The builder depends only on the document's entry sequence. -/
theorem buildDict_eq_entries (conv : Input → MsgLine) :
    ∀ (lines : List Line) (d : MsgDictionary),
      buildDict conv lines d = buildEntries conv (entriesOf lines) d := by
  intro lines
  induction lines with
  | nil => intro d; rfl
  | cons ln rest ih =>
    intro d
    cases ln with
    | Entry e =>
      rw [entriesOf_entry_cons]
      simp only [buildDict, buildEntries]
      by_cases hsec : e.secondary = []
      · rw [if_pos hsec, if_pos hsec]
        cases d.insert e.index (conv e.value) with
        | none => rfl
        | some d₁ => exact ih d₁
      · rw [if_neg hsec, if_neg hsec]
    | Break =>
      rw [entriesOf_break_cons]
      simp only [buildDict]
      exact ih d
    | Comment t =>
      rw [entriesOf_comment_cons]
      simp only [buildDict]
      exact ih d

/-- C4: comment and blank lines never affect the dictionary — two
documents with the same entries in the same order build structurally
identical dictionaries (same content and sub-index allocation), and an
input that tokenizes to a document with no entries parses to the empty
dictionary. -/
theorem comments_blanks_no_effect :
    (∀ (conv : Input → MsgLine) (l1 l2 : List Line) (d : MsgDictionary),
      entriesOf l1 = entriesOf l2 →
      buildDict conv l1 d = buildDict conv l2 d) ∧
    (∀ (conv : Input → MsgLine) (input : Input) (m : Msg),
      tokenize_msg input true = .ok m → entriesOf m.lines = [] →
      parse_msg_ext input conv = .ok emptyMsgDictionary) := by
  constructor
  · intro conv l1 l2 d h
    rw [buildDict_eq_entries, buildDict_eq_entries, h]
  · intro conv input m htok hemp
    have h1 : parse_msg_ext input conv =
        match buildDict conv m.lines emptyMsgDictionary with
        | some d => ParseOutcome.ok d
        | none => ParseOutcome.panic := by
      simp only [parse_msg_ext, htok]
    rw [h1, buildDict_eq_entries, hemp]
    rfl

/-- A comment-and-blank-only input for the C4 witness. -/
def c4winput : Input := bytesOf ("# hi") ++ nl ++ nl

/-- Witness for C4: interleaving a comment and a blank around the same
entry yields the same dictionary, and a comment/blank-only input parses
to the empty dictionary. -/
theorem comments_blanks_no_effect_witness :
    (entriesOf [Line.Comment [104], Line.Entry ⟨1, [], [118], none⟩] =
       entriesOf [Line.Entry ⟨1, [], [118], none⟩, Line.Break] ∧
     buildDict defaultLineConverter
       [Line.Comment [104], Line.Entry ⟨1, [], [118], none⟩]
       emptyMsgDictionary =
     buildDict defaultLineConverter
       [Line.Entry ⟨1, [], [118], none⟩, Line.Break] emptyMsgDictionary) ∧
    (tokenize_msg c4winput true = .ok ⟨[Line.Comment (bytesOf ("hi")),
        Line.Break, Line.Break]⟩ ∧
     entriesOf [Line.Comment (bytesOf ("hi")), Line.Break, Line.Break] = [] ∧
     parse_msg_ext c4winput defaultLineConverter = .ok emptyMsgDictionary) :=
  ⟨⟨rfl, comments_blanks_no_effect.1 defaultLineConverter _ _ emptyMsgDictionary
      rfl⟩,
   ⟨rfl, rfl, comments_blanks_no_effect.2 defaultLineConverter c4winput
      ⟨[Line.Comment (bytesOf ("hi")), Line.Break, Line.Break]⟩ rfl rfl⟩⟩

/-! ### C5: the commit points of the entry parser -/

/-- The C5 counterexample input: an opening delimiter and a numeric
index, then a missing closing delimiter. -/
def c5input : Input := ob :: bytesOf ("5 x")

/-- C5 counterexample: on this input the entry parser has matched the
opening delimiter and the numeric index `5`, the closing delimiter then
fails — yet the failure is recoverable (`err`, not a hard failure), the
tokenizer classifies the line as a blank line, and in exhaustive mode
the reported error is the leftover-input one, not an entry parse
error. -/
theorem entry_backtracks_to_blank_after_index :
    unsigned_number (bytesOf ("5 x")) = .ok (bytesOf (" x")) 5 ∧
    entry_with_apply c5input = .err ∧
    tokenize_msg c5input false = .ok ⟨[Line.Break]⟩ ∧
    tokenize_msg c5input true =
      .error ("Failed to exhaust input to the end: " ++ charsOf c5input) :=
  ⟨rfl, rfl, rfl, rfl⟩

/-- C5 amended: the entry parser is committed after the opening
delimiter for the index digits themselves (their failure is a hard
failure), and after the index group's closing delimiter has matched it
never errs recoverably; only a failure of that first closing delimiter
backtracks (see the counterexample). -/
theorem entry_commit_points :
    (∀ (i i1 : Input) (b : Nat), pchar 123 i = .ok i1 b →
      unsigned_number i1 = .err → entry_with_apply i = .fail) ∧
    (∀ (i i2 : Input) (n : Nat),
      curly_delimited (cutP unsigned_number) i = .ok i2 n →
      entry_with_apply i ≠ .err) := by
  constructor
  · intro i i1 b hp hn
    have h1 : curly_delimited (cutP unsigned_number) i = .fail := by
      simp only [curly_delimited, hp, cutP, hn]
    simp only [entry_with_apply, h1]
  · intro i i2 n hc
    simp only [entry_with_apply, hc]
    cases h2 : cutP (curly_delimited not_closing_curly) i2 with
    | err => exact absurd h2 (cutP_ne_err _ _)
    | fail => simp [h2]
    | ok i3 sec =>
      cases h3 : cutP (curly_delimited not_closing_curly) i3 with
      | err => exact absurd h3 (cutP_ne_err _ _)
      | fail => simp [h2, h3]
      | ok i4 val =>
        cases h4 : cutP (optP commentP) i4 with
        | err => exact absurd h4 (cutP_ne_err _ _)
        | fail => simp [h2, h3, h4]
        | ok i5 c => simp [h2, h3, h4]

/-- The well-formed entry used in the C5 witness. -/
def c5winput : Input := wrap (bytesOf ("1")) ++ wrap [] ++ wrap (bytesOf ("v"))

/-- Witness for the amended C5: a hard failure of the index digits, and
no recoverable error once the index group has matched. -/
theorem entry_commit_points_witness :
    (pchar 123 (ob :: bytesOf ("x")) = .ok (bytesOf ("x")) 123 ∧
     unsigned_number (bytesOf ("x")) = .err ∧
     entry_with_apply (ob :: bytesOf ("x")) = .fail) ∧
    (curly_delimited (cutP unsigned_number) c5winput =
       .ok (wrap [] ++ wrap (bytesOf ("v"))) 1 ∧
     entry_with_apply c5winput ≠ .err) :=
  ⟨⟨rfl, rfl,
    entry_commit_points.1 (ob :: bytesOf ("x")) (bytesOf ("x")) 123 rfl rfl⟩,
   ⟨rfl,
    entry_commit_points.2 c5winput (wrap [] ++ wrap (bytesOf ("v"))) 1 rfl⟩⟩

/-! ### C6: the exhaustive flag -/

/-- The C6 scenario input: a well-formed entry followed by trailing
garbage. -/
def c6input : Input :=
  wrap (bytesOf ("1")) ++ wrap [] ++ wrap (bytesOf ("ok")) ++
  bytesOf (" trailing garbage")

/-- C6: whenever the document grammar leaves unconsumed input, the
exhaustive tokenizer fails with the error carrying up to the first 20
unconsumed characters, while the non-exhaustive tokenizer succeeds with
the same document; concretely so on the entry-plus-trailing-garbage
scenario input. -/
theorem tokenize_exhaustive_behavior :
    (∀ (input rest : Input) (m : Msg), msgP input = .ok rest m → rest ≠ [] →
      tokenize_msg input true =
        .error ("Failed to exhaust input to the end: " ++
          charsOf (rest.take 20)) ∧
      tokenize_msg input false = .ok m) ∧
    (tokenize_msg c6input true =
       .error ("Failed to exhaust input to the end: " ++
         charsOf (bytesOf (" trailing garbage"))) ∧
     tokenize_msg c6input false =
       .ok ⟨[Line.Entry ⟨1, [], bytesOf ("ok"), none⟩]⟩) := by
  constructor
  · intro input rest m hm hne
    have hlen : ¬ (rest.length == 0) = true := by
      simp only [beq_iff_eq]
      intro hc
      exact hne (List.length_eq_zero.mp hc)
    constructor
    · simp only [tokenize_msg, hm, Bool.not_true, Bool.false_or]
      rw [if_neg hlen]
    · simp only [tokenize_msg, hm, Bool.not_false, Bool.true_or]
      simp
  · exact ⟨rfl, rfl⟩

/-- The document of the C6 witness input. -/
def c6wmsg : Msg := ⟨[Line.Entry ⟨1, [], bytesOf ("ok"), none⟩]⟩

/-- Witness for C6: the general exhaustiveness statement applied at the
scenario input. -/
theorem tokenize_exhaustive_behavior_witness :
    msgP c6input = .ok (bytesOf (" trailing garbage")) c6wmsg ∧
    bytesOf (" trailing garbage") ≠ [] ∧
    (tokenize_msg c6input true =
       .error ("Failed to exhaust input to the end: " ++
         charsOf ((bytesOf (" trailing garbage")).take 20)) ∧
     tokenize_msg c6input false = .ok c6wmsg) :=
  ⟨rfl, by decide,
   tokenize_exhaustive_behavior.1 c6input (bytesOf (" trailing garbage"))
     c6wmsg rfl (by decide)⟩

/-! ### C7: the default UTF-8 conversion and the first-value getters -/

/-- C7: under the default conversion of `parse_msg`, the first entry
value stored under a primary index is validated: an invalid-UTF-8 value
is stored as raw bytes (`get_first_string` absent, `get_first_bytes`
returns the exact original bytes), and a valid-UTF-8 value is stored as
text and returned by `get_first_string`. -/
theorem default_conversion_utf8 :
    ∀ (input : Input) (m : Msg) (d : MsgDictionary) (i : Nat) (v : Input),
      tokenize_msg input true = .ok m → parse_msg input = .ok d →
      (valuesAt i m.lines).head? = some v →
      ((utf8Valid v = false →
          d.get_first_string i = none ∧ d.get_first_bytes i = some v) ∧
       (utf8Valid v = true →
          btGet (i, 0) d.index_to_line = some (MsgLine.String v) ∧
          d.get_first_string i = some v)) := by
  intro input m d i v htok hparse hhead
  have hb : buildDict defaultLineConverter m.lines emptyMsgDictionary =
      some d := by
    simp only [parse_msg, parse_msg_ext, htok] at hparse
    cases hbd : buildDict defaultLineConverter m.lines emptyMsgDictionary with
    | none =>
      rw [hbd] at hparse
      exact absurd hparse (by simp)
    | some d₀ =>
      rw [hbd] at hparse
      simp only at hparse
      injection hparse with hd
      rw [hd]
  have hres := buildDict_char defaultLineConverter m.lines emptyMsgDictionary
    (fun _ => []) d DInv_empty hb
  have hbi : blockOf i d.index_to_line =
      enumList 0 ((valuesAt i m.lines).map defaultLineConverter) := by
    have := (hres.2 i).1
    simpa using this
  obtain ⟨vs, hvs⟩ : ∃ vs, valuesAt i m.lines = v :: vs := by
    cases hval : valuesAt i m.lines with
    | nil =>
      rw [hval] at hhead
      exact absurd hhead (by simp)
    | cons w ws =>
      rw [hval] at hhead
      simp only [List.head?_cons] at hhead
      injection hhead with hw
      exact ⟨ws, by rw [hw]⟩
  have hget : btGet (i, 0) d.index_to_line =
      some (defaultLineConverter v) := by
    rw [btGet_block, hbi, hvs, List.map_cons]
    have h1 : enumList 0 (defaultLineConverter v ::
        List.map defaultLineConverter vs) = (0, defaultLineConverter v) ::
        enumList 1 (List.map defaultLineConverter vs) := rfl
    rw [h1, List.find?_cons_of_pos _ (by simp)]
    rfl
  constructor
  · intro hinv
    have hconv : defaultLineConverter v = .Bytes v := by
      simp [defaultLineConverter, hinv]
    constructor
    · simp [MsgDictionary.get_first_string, hget, hconv, MsgLine.string]
    · simp [MsgDictionary.get_first_bytes, hget, hconv, MsgLine.bytes]
  · intro hv
    have hconv : defaultLineConverter v = .String v := by
      simp [defaultLineConverter, hv]
    constructor
    · rw [hget, hconv]
    · simp [MsgDictionary.get_first_string, hget, hconv, MsgLine.string]

/-- The C7 witness input: one entry whose value is the invalid UTF-8
byte `255`. -/
def c7input : Input := wrap (bytesOf ("3")) ++ wrap [] ++ wrap [255]

/-- The tokenized C7 witness document. -/
def c7wmsg : Msg := ⟨[.Entry ⟨3, [], [255], none⟩]⟩

/-- The C7 witness dictionary: the invalid value is stored as raw
bytes. -/
def c7wdict : MsgDictionary := ⟨[((3, 0), .Bytes [255])]⟩

/-- Witness for C7 at the invalid-UTF-8 value. -/
theorem default_conversion_utf8_witness :
    tokenize_msg c7input true = .ok c7wmsg ∧
    parse_msg c7input = .ok c7wdict ∧
    (valuesAt 3 c7wmsg.lines).head? = some [255] ∧
    utf8Valid [255] = false ∧
    (c7wdict.get_first_string 3 = none ∧
     c7wdict.get_first_bytes 3 = some [255]) :=
  ⟨rfl, rfl, rfl, rfl,
   (default_conversion_utf8 c7input c7wmsg c7wdict 3 [255] rfl rfl rfl).1 rfl⟩

/-! ### C9: the cp1251 converter -/

/-- C9: the converter of `parse_cp1251_file` is inverted relative to the
spec.  On bytes that decode cleanly under windows-1251 (e.g. plain
ASCII `"ok"`, no `0x98` byte), the code stores the raw bytes variant,
while the spec's converter stores the validated text variant; the two
differ on this input. -/
theorem cp1251_converter_inverted :
    cp1251HadErrors (bytesOf ("ok")) = false ∧
    cp1251LineConverter (bytesOf ("ok")) = .Bytes (bytesOf ("ok")) ∧
    specCp1251LineConverter (bytesOf ("ok")) = .String (bytesOf ("ok")) ∧
    cp1251LineConverter (bytesOf ("ok")) ≠
      specCp1251LineConverter (bytesOf ("ok")) :=
  ⟨rfl, rfl, rfl, by decide⟩

/-! ### C10: the three entry-parser implementations -/

/-- C10 counterexample: on the input consisting of the two delimiter
bytes alone, the tuple- and macro-based parsers return a recoverable
error while the commit-based parser returns a hard failure — the three
implementations do not produce identical parse results on every
input. -/
theorem entry_impls_differ_on_failure :
    _entry_with_tuple [123, 125] = .err ∧
    _entry_with_macro [123, 125] = .err ∧
    entry_with_apply [123, 125] = .fail ∧
    _entry_with_tuple [123, 125] ≠ entry_with_apply [123, 125] :=
  ⟨rfl, rfl, rfl, by decide⟩

/-- `curly_delimited` around a `cut` has exactly the same successes as
without it. -/
theorem curly_cutP_ok_iff (p : Input → PResult Nat) (i r : Input) (a : Nat) :
    curly_delimited (cutP p) i = .ok r a ↔ curly_delimited p i = .ok r a := by
  simp only [curly_delimited]
  cases h1 : pchar 123 i with
  | err => simp
  | fail => simp
  | ok i1 b =>
    cases h2 : p i1 with
    | err => simp [cutP, h2]
    | fail => simp [cutP, h2]
    | ok i2 v => simp [cutP, h2]

/-- C10 amended: the tuple-based and macro-based parsers agree on every
input, and all three agree on successes — they succeed on exactly the
same inputs with the same entry and the same remaining input; they
differ only in the severity of failures (see the counterexample). -/
theorem entry_impls_agree_on_success :
    (∀ i : Input, _entry_with_tuple i = _entry_with_macro i) ∧
    (∀ (i r : Input) (e : Entry),
      _entry_with_tuple i = .ok r e ↔ entry_with_apply i = .ok r e) := by
  constructor
  · intro i
    rfl
  · intro i r e
    simp only [_entry_with_tuple, entry_with_apply]
    cases h1 : curly_delimited unsigned_number i with
    | err =>
      cases h1' : curly_delimited (cutP unsigned_number) i with
      | err => simp
      | fail => simp
      | ok i1 n =>
        have h := (curly_cutP_ok_iff unsigned_number i i1 n).mp h1'
        rw [h1] at h
        exact absurd h (by simp)
    | fail =>
      cases h1' : curly_delimited (cutP unsigned_number) i with
      | err => simp
      | fail => simp
      | ok i1 n =>
        have h := (curly_cutP_ok_iff unsigned_number i i1 n).mp h1'
        rw [h1] at h
        exact absurd h (by simp)
    | ok i1 n =>
      have h1' := (curly_cutP_ok_iff unsigned_number i i1 n).mpr h1
      simp only [h1']
      cases h2 : curly_delimited not_closing_curly i1 with
      | err =>
        have h2' : cutP (curly_delimited not_closing_curly) i1 = .fail := by
          simp [cutP, h2]
        simp [h2']
      | fail =>
        have h2' : cutP (curly_delimited not_closing_curly) i1 = .fail := by
          simp [cutP, h2]
        simp [h2']
      | ok i2 sec =>
        have h2' : cutP (curly_delimited not_closing_curly) i1 = .ok i2 sec := by
          simp [cutP, h2]
        simp only [h2']
        cases h3 : curly_delimited not_closing_curly i2 with
        | err =>
          have h3' : cutP (curly_delimited not_closing_curly) i2 = .fail := by
            simp [cutP, h3]
          simp [h3']
        | fail =>
          have h3' : cutP (curly_delimited not_closing_curly) i2 = .fail := by
            simp [cutP, h3]
          simp [h3']
        | ok i3 val =>
          have h3' : cutP (curly_delimited not_closing_curly) i2 =
              .ok i3 val := by
            simp [cutP, h3]
          simp only [h3']
          cases h4 : optP commentP i3 with
          | err =>
            have h4' : cutP (optP commentP) i3 = .fail := by
              simp [cutP, h4]
            simp [h4']
          | fail =>
            have h4' : cutP (optP commentP) i3 = .fail := by
              simp [cutP, h4]
            simp [h4']
          | ok i4 c =>
            have h4' : cutP (optP commentP) i3 = .ok i4 c := by
              simp [cutP, h4]
            simp [h4']

/-- Witness for the amended C10: agreement of all three implementations
on a concrete successful parse. -/
theorem entry_impls_agree_on_success_witness :
    _entry_with_tuple c5winput = _entry_with_macro c5winput ∧
    (_entry_with_tuple c5winput = .ok [] ⟨1, [], bytesOf ("v"), none⟩ ↔
     entry_with_apply c5winput = .ok [] ⟨1, [], bytesOf ("v"), none⟩) :=
  ⟨entry_impls_agree_on_success.1 c5winput,
   entry_impls_agree_on_success.2 c5winput [] ⟨1, [], bytesOf ("v"), none⟩⟩
